import Mathlib

/-!
# Canopy: verification of the incremental code-graph pipeline

A shallow embedding of the parts of the `canopy` repository that the
claims under scrutiny are about, together with theorems settling each
claim.

Conventions of the embedding:

* Rust `u64`/`u32` indices are modelled as `Nat` (no arithmetic that can
  overflow is performed on them in the embedded code paths).
* `f32` confidence scores are modelled as `Rat`; the embedded code only
  compares confidences (never adds or multiplies them), and comparison of
  the float literals involved (0.7, 0.75, 0.8, 0.9, 1.0) agrees with the
  rational comparison.
* Filesystem paths are modelled as their list of components
  (`FsPath := List String`); `Path::display` is component join with "/".
* `HashMap` / `DashMap` values are modelled as association lists with
  insert-replaces-existing semantics; iteration order is never relied on
  by the embedded code paths.
* The graph store (`crates/canopy-core/src/graph.rs`) wraps
  `petgraph::stable_graph::StableDiGraph`.  That third-party structure is
  modelled by its documented semantics: a slot array for nodes and for
  edges plus a LIFO free list; `add_node`/`add_edge` pop the most
  recently freed slot if one exists, otherwise append; removal vacates
  the slot and pushes its index on the free list; `add_edge` panics
  (modelled as `Option.none`) when an endpoint is not a live node;
  `remove_node` cascades by removing incident edges.  The order in which
  a node-removal cascade frees incident edge slots is a modelling choice
  (increasing index order here); no theorem below depends on it.
* Fallible Rust code (`anyhow::Result`) is modelled with `Except String`
  or `Option`.
-/

namespace Canopy

/-- A filesystem path, as its list of components. -/
abbrev FsPath := List String

/-- `Path::display`, used by the extractor when building qualified names. -/
def pathDisplay (p : FsPath) : String :=
  String.intercalate "/" p

/-- Split a character list at every occurrence of a separator (the
pieces between separators, like `str::split`). -/
def splitOnChar (sep : Char) : List Char → List (List Char)
  | [] => [[]]
  | c :: rest =>
    let r := splitOnChar sep rest
    if c = sep then [] :: r
    else
      match r with
      | h :: t => (c :: h) :: t
      | [] => [[c]]

/-- `Path::extension`: the part of the file name after the final dot, with
the Rust corner cases (no embedded dot, or a hidden file whose only dot
is leading) returning `none`. -/
def pathExtension (p : FsPath) : Option String :=
  match p.getLast? with
  | none => none
  | some name =>
    let parts := splitOnChar '.' name.data
    let leadingDot : Bool :=
      match name.data with
      | '.' :: _ => true
      | _ => false
    if parts.length ≤ 1 then none
    else if leadingDot ∧ parts.length = 2 then none
    else parts.getLast?.map fun cs => String.mk cs

/-! Rational stand-ins for the `f32` literals of the source.  They are
written in normalized constructor form (numerator/denominator already
coprime) so that comparisons between concrete confidences evaluate by
kernel reduction. -/

/-- The float literal `0.7` (the hard-coded acceptance threshold in
`WatcherService::perform_ai_analysis`). -/
def rat07 : Rat := ⟨7, 10, by norm_num, by norm_num⟩

/-- The float literal `0.8` (the `Budget::new` default
`auto_accept_threshold`). -/
def rat08 : Rat := ⟨4, 5, by norm_num, by norm_num⟩

/-- The float literal `0.75`, used as a sample AI confidence. -/
def rat075 : Rat := ⟨3, 4, by norm_num, by norm_num⟩

/-- The float literal `0.9`, used as a sample AI confidence. -/
def rat09 : Rat := ⟨9, 10, by norm_num, by norm_num⟩

/-- `NodeKind` from `crates/canopy-core/src/model.rs`. -/
inductive NodeKind where
  | Directory | File | Module | Class | Struct | Enum | Interface
  | Function | Method | Constant | TypeAlias
  | ConfigBlock | ConfigKey | EnvVariable | Route | Migration | CIJob
  | DockerService | WorkspaceRoot | Package | Unknown
deriving DecidableEq, Repr

/-- `Language` from `crates/canopy-core/src/model.rs`. -/
inductive Language where
  | Rust | TypeScript | JavaScript | Python | Go | Java | C | Cpp
  | Yaml | Toml | Json | Sql | Dockerfile | Markdown | Protobuf
  | GraphQL | Other
deriving DecidableEq, Repr

/-- `EdgeKind` from `crates/canopy-core/src/model.rs`. -/
inductive EdgeKind where
  | Contains | Imports | Calls | Inherits | Implements | TypeReference
  | Instantiates | Exports | ConfiguresArgument | EnvironmentBinding
  | RouteHandler | MigrationTarget | CITrigger | DockerMount
  | SemanticReference
deriving DecidableEq, Repr

/-- `EdgeSource` from `crates/canopy-core/src/model.rs`. -/
inductive EdgeSource where
  | Structural | Heuristic | AI
deriving DecidableEq, Repr

/-- `GraphNode` from `crates/canopy-core/src/model.rs`.  `NodeId` is the
wrapped `u64`, modelled as `Nat`; `metadata` is an association list. -/
structure GraphNode where
  id : Nat
  kind : NodeKind
  name : String
  qualified_name : String
  file_path : FsPath
  line_start : Option Nat
  line_end : Option Nat
  language : Option Language
  is_container : Bool
  child_count : Nat
  loc : Option Nat
  metadata : List (String × String)
deriving DecidableEq, Repr

/-- `GraphEdge` from `crates/canopy-core/src/model.rs`; `confidence` is an
`f32` in the source, modelled as `Rat` (only compared, never computed). -/
structure GraphEdge where
  id : Nat
  source : Nat
  target : Nat
  kind : EdgeKind
  edge_source : EdgeSource
  confidence : Rat
  label : Option String
  file_path : Option FsPath
  line : Option Nat
deriving DecidableEq, Repr

/-! ## Association-list helpers

`HashMap::insert` and `DashMap::insert` replace an existing entry;
`entry(k).or_insert_with(Vec::new).push(v)` appends to the entry's vector,
creating it when absent; `remove` drops the entry. -/

/-- Map lookup. -/
def alookup {α β : Type} [DecidableEq α] : List (α × β) → α → Option β
  | [], _ => none
  | (k, v) :: rest, key => if k = key then some v else alookup rest key

/-- Map insert with replace-existing semantics (`HashMap::insert`). -/
def ainsert {α β : Type} [DecidableEq α] : List (α × β) → α → β → List (α × β)
  | [], key, val => [(key, val)]
  | (k, v) :: rest, key, val =>
    if k = key then (k, val) :: rest else (k, v) :: ainsert rest key val

/-- Map entry removal (`HashMap::remove`). -/
def aerase {α β : Type} [DecidableEq α] : List (α × β) → α → List (α × β)
  | [], _ => []
  | (k, v) :: rest, key =>
    if k = key then rest else (k, v) :: aerase rest key

/-- `entry(key).or_insert_with(Vec::new).push(item)`. -/
def apush {α β : Type} [DecidableEq α] : List (α × List β) → α → β → List (α × List β)
  | [], key, item => [(key, [item])]
  | (k, v) :: rest, key, item =>
    if k = key then (k, v ++ [item]) :: rest else (k, v) :: apush rest key item

/-! ## Graph store (`crates/canopy-core/src/graph.rs`)

`Graph` wraps `petgraph::stable_graph::StableDiGraph<GraphNode, GraphEdge>`.
See the module comment for how the petgraph slot/free-list semantics are
modelled.  Indices are the `NodeId(idx.index() as u64)` / `EdgeId` values
the wrapper returns. -/

structure Graph where
  nodes : List (Option GraphNode)
  edges : List (Option GraphEdge)
  freeNodes : List Nat
  freeEdges : List Nat
deriving DecidableEq, Repr

namespace Graph

/-- `Graph::new`. -/
def new : Graph := ⟨[], [], [], []⟩

/-- `Graph::node`: the live node stored at an index. -/
def node (g : Graph) (id : Nat) : Option GraphNode :=
  (g.nodes.get? id).join

/-- `Graph::edge`: the live edge stored at an index. -/
def edge (g : Graph) (id : Nat) : Option GraphEdge :=
  (g.edges.get? id).join

/-- `Graph::add_node`: store the weight in the most recently freed slot if
any, else append; return the assigned index. -/
def add_node (g : Graph) (n : GraphNode) : Graph × Nat :=
  match g.freeNodes with
  | i :: rest => ({ g with nodes := g.nodes.set i (some n), freeNodes := rest }, i)
  | [] => ({ g with nodes := g.nodes ++ [some n] }, g.nodes.length)

/-- `Graph::add_edge`: petgraph panics when an endpoint is not a live
node (modelled as `none`); otherwise the edge weight is stored like a
node ­— freed slot first, else append. -/
def add_edge (g : Graph) (e : GraphEdge) : Option (Graph × Nat) :=
  if (g.node e.source).isSome ∧ (g.node e.target).isSome then
    match g.freeEdges with
    | i :: rest =>
      some ({ g with edges := g.edges.set i (some e), freeEdges := rest }, i)
    | [] => some ({ g with edges := g.edges ++ [some e] }, g.edges.length)
  else none

/-- `Graph::remove_edge`: vacate the slot and push its index on the free
list; a miss leaves the graph unchanged. -/
def remove_edge (g : Graph) (id : Nat) : Graph :=
  match g.edge id with
  | some _ => { g with edges := g.edges.set id none, freeEdges := id :: g.freeEdges }
  | none => g

/-- Indices of live edges incident to a node, in increasing order. -/
def incidentEdges (g : Graph) (id : Nat) : List Nat :=
  (List.range g.edges.length).filter fun i =>
    match g.edge i with
    | some e => e.source = id ∨ e.target = id
    | none => false

/-- `Graph::remove_node`: cascade-remove incident edges, then vacate the
node slot and push its index on the node free list. -/
def remove_node (g : Graph) (id : Nat) : Graph :=
  match g.node id with
  | some _ =>
    let g1 := (g.incidentEdges id).foldl (fun acc i => acc.remove_edge i) g
    { g1 with nodes := g1.nodes.set id none, freeNodes := id :: g1.freeNodes }
  | none => g

/-- `Graph::nodes_of_kind`: indices (in increasing order) of live nodes of
the given kind. -/
def nodes_of_kind (g : Graph) (k : NodeKind) : List Nat :=
  (List.range g.nodes.length).filter fun i =>
    match g.node i with
    | some n => n.kind = k
    | none => false

/-- `Graph::all_edges`: live edge weights in index order. -/
def all_edges (g : Graph) : List GraphEdge :=
  g.edges.filterMap id

end Graph

/-! ## Diff engine (`crates/canopy-core/src/diff.rs`) -/

/-- `GraphDiff` from `crates/canopy-core/src/diff.rs`. -/
structure GraphDiff where
  sequence : Nat
  added_nodes : List GraphNode
  removed_nodes : List Nat
  added_edges : List GraphEdge
  removed_edges : List Nat
  modified_nodes : List Nat
deriving DecidableEq, Repr

/-- `GraphDiff::new`. -/
def GraphDiff.new (sequence : Nat) : GraphDiff :=
  ⟨sequence, [], [], [], [], []⟩

/-- `DiffEngine::compute_diff`.  The engine state is its `sequence`
counter; the function returns the updated counter together with the diff.
The node scans iterate `nodes_of_kind(NodeKind::Unknown)` exactly as the
source does; the edge scans look weights up by the *stored* `id` field. -/
def computeDiff (seq : Nat) (old_graph new_graph : Graph) : Nat × GraphDiff :=
  let added_nodes := (new_graph.nodes_of_kind NodeKind.Unknown).filterMap fun i =>
    if (old_graph.node i).isNone then new_graph.node i else none
  let removed_nodes := (old_graph.nodes_of_kind NodeKind.Unknown).filter fun i =>
    (new_graph.node i).isNone
  let added_edges := new_graph.all_edges.filter fun e => (old_graph.edge e.id).isNone
  let removed_edges := (old_graph.all_edges.filter fun e =>
    (new_graph.edge e.id).isNone).map (·.id)
  (seq + 1,
   { sequence := seq + 1
     added_nodes := added_nodes
     removed_nodes := removed_nodes
     added_edges := added_edges
     removed_edges := removed_edges
     modified_nodes := [] })

/-! ## AI bridge types (`crates/canopy-ai/src/bridge.rs`) -/

/-- `SemanticRelationship` from `crates/canopy-ai/src/bridge.rs`. -/
inductive SemanticRelationship where
  | Calls | DependsOn | Implements | Extends | TestedBy | Uses
  | Configures | HandlesRoute | MigrationDepends | SemanticReference
deriving DecidableEq, Repr

/-- `impl From<SemanticRelationship> for EdgeKind`. -/
def SemanticRelationship.toEdgeKind : SemanticRelationship → EdgeKind
  | .Calls => .Calls
  | .DependsOn => .TypeReference
  | .Implements => .Implements
  | .Extends => .Inherits
  | .TestedBy => .SemanticReference
  | .Uses => .Imports
  | .Configures => .ConfiguresArgument
  | .HandlesRoute => .RouteHandler
  | .MigrationDepends => .MigrationTarget
  | .SemanticReference => .SemanticReference

/-- `InferredRelationship` from `crates/canopy-ai/src/bridge.rs`. -/
structure InferredRelationship where
  source_id : Nat
  target_id : Nat
  relationship : SemanticRelationship
  confidence : Rat
  explanation : String
  line_reference : Option Nat
deriving DecidableEq, Repr

/-! ## AI budget (`crates/canopy-ai/src/budget.rs`) -/

/-- `Budget` from `crates/canopy-ai/src/budget.rs`. -/
structure Budget where
  total_tokens : Nat
  tokens_used : Nat
  max_tokens_per_request : Nat
  auto_accept_threshold : Rat
  enable_caching : Bool
deriving DecidableEq, Repr

/-- `Budget::new`: the literals of the source, with `0.8 = 4/5`. -/
def Budget.new (total_tokens : Nat) : Budget :=
  { total_tokens := total_tokens
    tokens_used := 0
    max_tokens_per_request := 4000
    auto_accept_threshold := rat08
    enable_caching := true }

/-- `Budget::should_auto_accept`. -/
def Budget.should_auto_accept (b : Budget) (confidence : Rat) : Bool :=
  b.auto_accept_threshold ≤ confidence

/-! ## Symbol table (`crates/canopy-core/src/symbols.rs`)

The two `DashMap`s are modelled as association lists (see the helper
section); file paths are the `String` keys the source uses. -/

structure SymbolTable where
  symbols : List (String × Nat)
  file_symbols : List (String × List String)
deriving DecidableEq, Repr

namespace SymbolTable

/-- `SymbolTable::new`. -/
def new : SymbolTable := ⟨[], []⟩

/-- `SymbolTable::insert`: overwrite the name binding, and append the name
to the file's reverse-index vector (created on first use). -/
def insert (t : SymbolTable) (qualified_name : String) (node_id : Nat)
    (file_path : String) : SymbolTable :=
  { symbols := ainsert t.symbols qualified_name node_id
    file_symbols := apush t.file_symbols file_path qualified_name }

/-- `SymbolTable::lookup`. -/
def lookup (t : SymbolTable) (qualified_name : String) : Option Nat :=
  alookup t.symbols qualified_name

/-- `SymbolTable::remove_file`: take the file's reverse-index entry (if
any) and remove each listed name from the symbol map. -/
def remove_file (t : SymbolTable) (file_path : String) : SymbolTable :=
  match alookup t.file_symbols file_path with
  | some syms =>
    { symbols := syms.foldl (fun m n => aerase m n) t.symbols
      file_symbols := aerase t.file_symbols file_path }
  | none => t

end SymbolTable

/-! ## File watcher path logic (`crates/canopy-watcher/src/watcher.rs`) -/

/-- `WatchEvent` from `crates/canopy-watcher/src/watcher.rs`. -/
inductive WatchEvent where
  | created (p : FsPath)
  | modified (p : FsPath)
  | removed (p : FsPath)
  | changesFlushed
deriving DecidableEq, Repr

/-- The `notify::EventKind` cases distinguished by
`FileWatcher::handle_notify_event` (all others fall to `_ => {}`). -/
inductive NotifyKind where
  | create | modify | remove | other
deriving DecidableEq, Repr

/-- `should_ignore_path`: loop over the components, returning `true` on
the first match against the hard-coded directory names. -/
def should_ignore_path : FsPath → Bool
  | [] => false
  | c :: rest =>
    if c = "target" ∨ c = ".git" ∨ c = "node_modules" ∨ c = ".openclaw" then
      true
    else should_ignore_path rest

/-- The per-kind loop body of `handle_notify_event`: send one event per
non-ignored path, in order. -/
def sendFiltered (ctor : FsPath → WatchEvent) : List FsPath → List WatchEvent
  | [] => []
  | p :: rest =>
    if should_ignore_path p then sendFiltered ctor rest
    else ctor p :: sendFiltered ctor rest

/-- `FileWatcher::handle_notify_event`: the events delivered on the
channel for one notify event (the channel send never fails in the model). -/
def handle_notify_event (kind : NotifyKind) (paths : List FsPath) : List WatchEvent :=
  match kind with
  | .create => sendFiltered WatchEvent.created paths
  | .modify => sendFiltered WatchEvent.modified paths
  | .remove => sendFiltered WatchEvent.removed paths
  | .other => []

/-- `is_code_file` from `crates/canopy-watcher/src/watcher.rs`. -/
def is_code_file (path : FsPath) : Bool :=
  match pathExtension path with
  | some "rs" | some "ts" | some "js" | some "jsx" | some "tsx" | some "py"
  | some "go" | some "java" | some "cpp" | some "c" | some "h" => true
  | _ => false

/-! ## Watcher service (`crates/canopy-watcher/src/watcher.rs`)

`WatcherService` state that the claims are about: the graph, the
`DiffEngine` sequence counter, and the two per-file indices.  The
broadcast channel is modelled by returning the list of diffs handed to
it (serialization never fails in the model). -/

structure WatcherState where
  graph : Graph
  engineSeq : Nat
  fileToNodes : List (FsPath × List Nat)
  fileToEdges : List (FsPath × List Nat)
deriving DecidableEq, Repr

/-- The initial service state: empty graph, `DiffEngine::new`, empty
per-file indices. -/
def WatcherState.initial : WatcherState :=
  ⟨Graph.new, 0, [], []⟩

/-- `ExtractionResult` from `crates/canopy-indexer/src/languages/mod.rs`. -/
structure ExtractionResult where
  nodes : List GraphNode
  edges : List GraphEdge
deriving DecidableEq, Repr

/-- The node-insertion loop of `update_graph_incrementally`: insert each
extracted node, collecting assigned ids and the id-patched copies pushed
into `added_nodes` (the stored weight keeps the id the extractor set). -/
def insertNodes (g : Graph) : List GraphNode → Graph × List Nat × List GraphNode
  | [] => (g, [], [])
  | n :: rest =>
    let (g1, i) := g.add_node n
    let (g2, ids, patched) := insertNodes g1 rest
    (g2, i :: ids, { n with id := i } :: patched)

/-- The edge-insertion loop shared by `update_graph_incrementally` and the
AI section of `handle_file_change`: insert each edge (a panic in
`add_edge` aborts, modelled as `none`), collecting assigned ids and the
id-patched copies. -/
def insertEdges (g : Graph) : List GraphEdge → Option (Graph × List Nat × List GraphEdge)
  | [] => some (g, [], [])
  | e :: rest =>
    match g.add_edge e with
    | none => none
    | some (g1, i) =>
      match insertEdges g1 rest with
      | none => none
      | some (g2, ids, patched) => some (g2, i :: ids, { e with id := i } :: patched)

/-- `WatcherService::update_graph_incrementally`.  Note the source inserts
the extracted edges verbatim (its comment: edges reference nodes by their
position in the extraction result; no id patching of `source`/`target` is
performed), and bumps the diff-engine sequence by calling `compute_diff`
on two empty graphs after stamping `sequence() + 1` on the diff. -/
def update_graph_incrementally (path : FsPath) (extraction_result : ExtractionResult)
    (old_nodes old_edges : List Nat) (s : WatcherState) :
    Option (WatcherState × GraphDiff) :=
  let g0 := old_edges.foldl (fun g i => g.remove_edge i) s.graph
  let g1 := old_nodes.foldl (fun g i => g.remove_node i) g0
  let (g2, new_node_ids, added_nodes) := insertNodes g1 extraction_result.nodes
  match insertEdges g2 extraction_result.edges with
  | none => none
  | some (g3, new_edge_ids, added_edges) =>
    let diff : GraphDiff :=
      { sequence := s.engineSeq + 1
        added_nodes := added_nodes
        removed_nodes := old_nodes
        added_edges := added_edges
        removed_edges := old_edges
        modified_nodes := [] }
    let s1 : WatcherState :=
      { graph := g3
        engineSeq := (computeDiff s.engineSeq Graph.new Graph.new).1
        fileToNodes := ainsert s.fileToNodes path new_node_ids
        fileToEdges := ainsert s.fileToEdges path new_edge_ids }
    some (s1, diff)

/-- `WatcherService::handle_file_removal`.  The emitted diff is built by
`GraphDiff::new(0)` and only its removal lists are filled in; the
diff-engine sequence is bumped by `compute_diff` on two empty graphs but
the result is discarded — the broadcast diff keeps `sequence = 0`.
Returns the new state and the diff handed to the broadcaster (if any). -/
def handle_file_removal (path : FsPath) (s : WatcherState) :
    WatcherState × Option GraphDiff :=
  if is_code_file path then
    let nodes_to_remove := (alookup s.fileToNodes path).getD []
    let edges_to_remove := (alookup s.fileToEdges path).getD []
    let g0 := edges_to_remove.foldl (fun g i => g.remove_edge i) s.graph
    let g1 := nodes_to_remove.foldl (fun g i => g.remove_node i) g0
    let diff : GraphDiff :=
      { GraphDiff.new 0 with
        removed_nodes := nodes_to_remove
        removed_edges := edges_to_remove }
    let s1 : WatcherState :=
      { graph := g1
        engineSeq := (computeDiff s.engineSeq Graph.new Graph.new).1
        fileToNodes := aerase s.fileToNodes path
        fileToEdges := aerase s.fileToEdges path }
    (s1, some diff)
  else (s, none)

/-- `WatcherService::perform_ai_analysis`.  The candidate snapshot
(`graph.all_nodes()`) and the analysis context are bundled into the
provider request and do not affect which edges the function constructs,
so the provider roundtrip is the oracle `responses` (per source node;
`Except.error` is a provider failure, logged and skipped).  A
relationship is kept only when `confidence >= 0.7`. -/
def perform_ai_analysis (responses : GraphNode → Except String (List InferredRelationship))
    (path : FsPath) (added_nodes : List GraphNode) : List GraphEdge :=
  if added_nodes = [] then []
  else
    (added_nodes.filter fun n =>
        n.kind = NodeKind.Function ∨ n.kind = NodeKind.Method).foldl
      (fun acc src =>
        match responses src with
        | .ok rels =>
          acc ++ (rels.filter fun r => rat07 ≤ r.confidence).map fun r =>
            { id := 0
              source := r.source_id
              target := r.target_id
              kind := r.relationship.toEdgeKind
              edge_source := EdgeSource.AI
              confidence := r.confidence
              label := some r.explanation
              file_path := some path
              line := r.line_reference }
        | .error _ => acc) []

/-- `WatcherService::handle_file_change` for a `Created`/`Modified` event.
`extraction` is the outcome of reading the file and running
`extract_from_file` (a read error behaves exactly like an extractor
error: log and return with no state change).  When an AI provider is
configured and extraction produced nodes, the AI pass runs *inline,
before the broadcast*; its accepted edges are added to the graph and the
file's edge index, and the single structural diff is then broadcast.
Returns `none` on an `add_edge` panic, else the new state and the list
of diffs handed to the broadcaster. -/
def handle_file_change (aiConfigured : Bool)
    (responses : GraphNode → Except String (List InferredRelationship))
    (path : FsPath) (extraction : Except String ExtractionResult)
    (s : WatcherState) : Option (WatcherState × List GraphDiff) :=
  if is_code_file path then
    match extraction with
    | .error _ => some (s, [])
    | .ok extraction_result =>
      let old_nodes := (alookup s.fileToNodes path).getD []
      let old_edges := (alookup s.fileToEdges path).getD []
      match update_graph_incrementally path extraction_result old_nodes old_edges s with
      | none => none
      | some (s1, graph_diff) =>
        let afterAi : Option WatcherState :=
          if aiConfigured ∧ extraction_result.nodes ≠ [] then
            let ai_edges := perform_ai_analysis responses path graph_diff.added_nodes
            if ai_edges ≠ [] then
              match insertEdges s1.graph ai_edges with
              | none => none
              | some (g2, new_edge_ids, _) =>
                some { s1 with
                  graph := g2
                  fileToEdges :=
                    match alookup s1.fileToEdges path with
                    | some es => ainsert s1.fileToEdges path (es ++ new_edge_ids)
                    | none => s1.fileToEdges }
            else some s1
          else some s1
        match afterAi with
        | none => none
        | some s2 => some (s2, [graph_diff])
  else some (s, [])

/-! ## Rust extractor (`crates/canopy-indexer/src/languages/rust.rs`)

The tree-sitter parse tree is modelled as a rose tree of named nodes;
each child carries the optional field name tree-sitter attaches to it
(`child_by_field_name`).  `utf8_text` of a node is its `text` slice;
`start_position().row` / `end_position().row` are the stored rows, and
`point_to_u32` is row + 1. -/

mutual
inductive TSNode where
  | mk (kind : String) (text : String) (startRow : Nat) (endRow : Nat)
       (children : TSForest)
inductive TSForest where
  | nil
  | cons (fieldName : Option String) (head : TSNode) (tail : TSForest)
end

/-- `node.kind()`. -/
def TSNode.kind : TSNode → String
  | .mk k _ _ _ _ => k

/-- `node.utf8_text(source)` (always succeeds in the model). -/
def TSNode.text : TSNode → String
  | .mk _ t _ _ _ => t

/-- `node.start_position().row`. -/
def TSNode.startRow : TSNode → Nat
  | .mk _ _ r _ _ => r

/-- `node.end_position().row`. -/
def TSNode.endRow : TSNode → Nat
  | .mk _ _ _ r _ => r

/-- `node.children(&mut cursor)`. -/
def TSNode.children : TSNode → TSForest
  | .mk _ _ _ _ cs => cs

/-- The `for child in node.children()` search loops: first child whose
kind is one of the given grammar kinds. -/
def firstChildOfKinds : TSForest → List String → Option TSNode
  | .nil, _ => none
  | .cons _ c rest, ks =>
    if c.kind ∈ ks then some c else firstChildOfKinds rest ks

/-- `node.child_by_field_name(name)`: first child carrying that field. -/
def childByFieldName : TSForest → String → Option TSNode
  | .nil, _ => none
  | .cons f c rest, nm =>
    if f = some nm then some c else childByFieldName rest nm

/-- `RustExtractor::extract_function`: a `function_item` or
`method_definition` yields a `Function` node named after its first
`identifier` child, with `qualified_name = "{path}::{name}"`. -/
def extract_function (n : TSNode) (path : FsPath) : Option GraphNode :=
  if n.kind = "function_item" ∨ n.kind = "method_definition" then
    match firstChildOfKinds n.children ["identifier"] with
    | some idNode =>
      let start_pos := n.startRow + 1
      let end_pos := n.endRow + 1
      some { id := 0
             kind := NodeKind.Function
             name := idNode.text
             qualified_name := pathDisplay path ++ "::" ++ idNode.text
             file_path := path
             line_start := some start_pos
             line_end := some end_pos
             language := some Language.Rust
             is_container := false
             child_count := 0
             loc := some (end_pos - start_pos)
             metadata := [] }
    | none => none
  else none

/-- `RustExtractor::extract_struct`: a `struct_item` yields a `Class`
node named after its first `type_identifier`/`identifier` child. -/
def extract_struct (n : TSNode) (path : FsPath) : Option GraphNode :=
  if n.kind = "struct_item" then
    match firstChildOfKinds n.children ["type_identifier", "identifier"] with
    | some idNode =>
      let start_pos := n.startRow + 1
      let end_pos := n.endRow + 1
      some { id := 0
             kind := NodeKind.Class
             name := idNode.text
             qualified_name := pathDisplay path ++ "::" ++ idNode.text
             file_path := path
             line_start := some start_pos
             line_end := some end_pos
             language := some Language.Rust
             is_container := true
             child_count := 0
             loc := some (end_pos - start_pos)
             metadata := [] }
    | none => none
  else none

/-- The inner loop of `extract_impl_block`: run `extract_function` over
the children of a `declaration_list`. -/
def declListMethods (path : FsPath) : TSForest → List GraphNode
  | .nil => []
  | .cons _ m rest => (extract_function m path).toList ++ declListMethods path rest

/-- The outer loop of `extract_impl_block` over an `impl_item`'s
children. -/
def implChildren (path : FsPath) : TSForest → List GraphNode
  | .nil => []
  | .cons _ c rest =>
    (if c.kind = "declaration_list" then declListMethods path c.children else [])
      ++ implChildren path rest

/-- `RustExtractor::extract_impl_block`. -/
def extract_impl_block (n : TSNode) (path : FsPath) : List GraphNode :=
  if n.kind = "impl_item" then implChildren path n.children else []

mutual
/-- `RustExtractor::extract_use_path`. -/
def extract_use_path : TSNode → Option String
  | .mk k t _ _ cs =>
    if k = "scoped_identifier" ∨ k = "identifier" then some t
    else if k = "use_wildcard" then
      match childByFieldName cs "prefix" with
      | some pfx => some (pfx.text ++ "::*")
      | none => none
    else
      let parts := usePathParts cs
      if parts = [] then none else some (String.intercalate "::" parts)
/-- The recursive child walk of `extract_use_path`'s default arm. -/
def usePathParts : TSForest → List String
  | .nil => []
  | .cons _ c rest => (extract_use_path c).toList ++ usePathParts rest
end

/-- `RustExtractor::extract_use_statement`. -/
def extract_use_statement (n : TSNode) : List String :=
  if n.kind = "use_declaration" then
    match childByFieldName n.children "argument" with
    | some arg => (extract_use_path arg).toList
    | none => []
  else []

mutual
/-- The `visit_node` closure inside `RustExtractor::extract`: collect
(in push order) the nodes and import strings of a subtree.  The `edges`
vector is never written during the walk, so it is not threaded. -/
def visit_node (path : FsPath) : TSNode → List GraphNode × List String
  | .mk k t sr er cs =>
    let n := TSNode.mk k t sr er cs
    let fnNodes := (extract_function n path).toList
    let stNodes := (extract_struct n path).toList
    let implNodes := extract_impl_block n path
    let imps := extract_use_statement n
    let (childNodes, childImps) := visit_forest path cs
    (fnNodes ++ stNodes ++ implNodes ++ childNodes, imps ++ childImps)
/-- Child recursion of `visit_node`. -/
def visit_forest (path : FsPath) : TSForest → List GraphNode × List String
  | .nil => ([], [])
  | .cons _ c rest =>
    let (ns, imps) := visit_node path c
    let (ns2, imps2) := visit_forest path rest
    (ns ++ ns2, imps ++ imps2)
end

/-- One continuation-byte check of `std::str::from_utf8` validation. -/
def isCont (b : Nat) : Bool := 0x80 ≤ b ∧ b ≤ 0xBF

/-- `std::str::from_utf8`: UTF-8 validation/decoding with the standard
ranges (rejecting overlong forms, surrogates and values above U+10FFFF),
returning the decoded characters. -/
def decodeUtf8 : List Nat → Option (List Char)
  | [] => some []
  | b :: rest =>
    if b ≤ 0x7F then
      (decodeUtf8 rest).map (Char.ofNat b :: ·)
    else if 0xC2 ≤ b ∧ b ≤ 0xDF then
      match rest with
      | b1 :: rest1 =>
        if isCont b1 then
          (decodeUtf8 rest1).map (Char.ofNat ((b - 0xC0) * 0x40 + (b1 - 0x80)) :: ·)
        else none
      | [] => none
    else if 0xE0 ≤ b ∧ b ≤ 0xEF then
      match rest with
      | b1 :: b2 :: rest2 =>
        let lo1 := if b = 0xE0 then 0xA0 else 0x80
        let hi1 := if b = 0xED then 0x9F else 0xBF
        if lo1 ≤ b1 ∧ b1 ≤ hi1 ∧ isCont b2 then
          (decodeUtf8 rest2).map
            (Char.ofNat ((b - 0xE0) * 0x1000 + (b1 - 0x80) * 0x40 + (b2 - 0x80)) :: ·)
        else none
      | _ => none
    else if 0xF0 ≤ b ∧ b ≤ 0xF4 then
      match rest with
      | b1 :: b2 :: b3 :: rest3 =>
        let lo1 := if b = 0xF0 then 0x90 else 0x80
        let hi1 := if b = 0xF4 then 0x8F else 0xBF
        if lo1 ≤ b1 ∧ b1 ≤ hi1 ∧ isCont b2 ∧ isCont b3 then
          (decodeUtf8 rest3).map
            (Char.ofNat ((b - 0xF0) * 0x40000 + (b1 - 0x80) * 0x1000 +
              (b2 - 0x80) * 0x40 + (b3 - 0x80)) :: ·)
        else none
      | _ => none
    else none

/-- `RustExtractor::extract`: validate UTF-8, parse via the pool
(`parse` is the pool roundtrip, which may fail), walk the tree, then
turn each collected import into a `Heuristic` `Imports` edge with
placeholder ids `EdgeId(0)`/`NodeId(0)` and confidence 1.0. -/
def rustExtract (parse : String → Except String TSNode) (path : FsPath)
    (content : List Nat) : Except String ExtractionResult :=
  match decodeUtf8 content with
  | none => .error "invalid utf-8 sequence"
  | some chars =>
    match parse (String.mk chars) with
    | .error e => .error e
    | .ok tree =>
      let (nodes, imports) := visit_node path tree
      let edges := imports.map fun imp =>
        { id := 0
          source := 0
          target := 0
          kind := EdgeKind.Imports
          edge_source := EdgeSource.Heuristic
          confidence := 1
          label := some ("uses " ++ imp)
          file_path := some path
          line := none : GraphEdge }
      .ok ⟨nodes, edges⟩

/-! ## Well-formedness of graph states

`Graph` values reachable from `Graph::new` by the store's operations keep
the petgraph free-list invariant: every free-list index denotes an
existing, vacant slot, and no index is listed twice.  The id-allocation
facts about `add_node`/`add_edge` hold under this invariant. -/

/-- Free-list well-formedness of a graph state. -/
def Graph.WF (g : Graph) : Prop :=
  (∀ i ∈ g.freeNodes, g.nodes.get? i = some none) ∧ g.freeNodes.Nodup ∧
  (∀ i ∈ g.freeEdges, g.edges.get? i = some none) ∧ g.freeEdges.Nodup

instance (g : Graph) : Decidable g.WF := by
  unfold Graph.WF; infer_instance

/-! ## Concrete sample values used by evaluation theorems -/

/-- A sample extracted node (placeholder id 0, as extractors emit). -/
def sampleNode (nm : String) (k : NodeKind) : GraphNode :=
  { id := 0
    kind := k
    name := nm
    qualified_name := nm
    file_path := ["a.rs"]
    line_start := none
    line_end := none
    language := some Language.Rust
    is_container := false
    child_count := 0
    loc := none
    metadata := [] }

/-- A sample import edge exactly as `RustExtractor::extract` emits it:
placeholder ids 0, `Heuristic`, confidence 1.0. -/
def sampleImportEdge : GraphEdge :=
  { id := 0
    source := 0
    target := 0
    kind := EdgeKind.Imports
    edge_source := EdgeSource.Heuristic
    confidence := 1
    label := some "uses std::collections::HashMap"
    file_path := some ["b.rs"]
    line := none }

/-- A provider oracle answering one `Calls` relationship at the given
confidence. -/
def singleRelResponse (conf : Rat) :
    GraphNode → Except String (List InferredRelationship) := fun _ =>
  Except.ok [{ source_id := 0
               target_id := 0
               relationship := SemanticRelationship.Calls
               confidence := conf
               explanation := "calls g"
               line_reference := none }]

/-- The edge `perform_ai_analysis` constructs from one accepted `Calls`
relationship of `singleRelResponse` at the given confidence, for path
`b.rs`. -/
def acceptedCallsEdge (conf : Rat) : GraphEdge :=
  { id := 0
    source := 0
    target := 0
    kind := EdgeKind.Calls
    edge_source := EdgeSource.AI
    confidence := conf
    label := some "calls g"
    file_path := some ["b.rs"]
    line := none }

/-- The parse tree of `impl User { fn get_name ... }`: an `impl_item`
holding a `type_identifier` and a `declaration_list` with one
`function_item` whose identifier is `get_name`. -/
def implUserTree : TSNode :=
  TSNode.mk "impl_item" "" 0 3
    (TSForest.cons none (TSNode.mk "type_identifier" "User" 0 0 TSForest.nil)
      (TSForest.cons none
        (TSNode.mk "declaration_list" "" 0 3
          (TSForest.cons none
            (TSNode.mk "function_item" "" 1 2
              (TSForest.cons none
                (TSNode.mk "identifier" "get_name" 1 1 TSForest.nil)
                TSForest.nil))
            TSForest.nil))
        TSForest.nil))

/-- The tree tree-sitter produces for the empty source: a bare
`source_file` root. -/
def emptyRoot : TSNode := TSNode.mk "source_file" "" 0 0 TSForest.nil

/-- A parser-pool oracle that always succeeds with `emptyRoot`. -/
def emptyParse : String → Except String TSNode := fun _ => Except.ok emptyRoot

/-! # Theorems -/

/-! ## C6 — watcher path filter -/

/-- The loop of `should_ignore_path` returns `true` exactly when some
component equals one of the four hard-coded names. -/
theorem should_ignore_path_iff (p : FsPath) :
    should_ignore_path p = true ↔
      ∃ c ∈ p, c = "target" ∨ c = ".git" ∨ c = "node_modules" ∨ c = ".openclaw" := by
  induction p with
  | nil => simp [should_ignore_path]
  | cons c rest ih =>
    by_cases hc : c = "target" ∨ c = ".git" ∨ c = "node_modules" ∨ c = ".openclaw"
    · simp [should_ignore_path, hc]
    · simp [should_ignore_path, hc, ih]

/-- The send loop is filter-then-map. -/
theorem sendFiltered_eq_filter_map (ctor : FsPath → WatchEvent) (ps : List FsPath) :
    sendFiltered ctor ps = (ps.filter fun p => !should_ignore_path p).map ctor := by
  induction ps with
  | nil => rfl
  | cons p rest ih =>
    by_cases hp : should_ignore_path p
    · simp [sendFiltered, hp, List.filter_cons, ih]
    · simp only [Bool.not_eq_true] at hp
      simp [sendFiltered, hp, List.filter_cons, ih]

/-- C6 (corrected): the claim's excluded-name set is wrong — the source
excludes `.openclaw`, not `.canopy`.  A path containing a `.canopy`
component is *not* ignored, while one containing `.openclaw` *is*. -/
theorem c6_counterexample :
    should_ignore_path [".canopy", "a.rs"] = false ∧
    should_ignore_path [".openclaw", "a.rs"] = true := by decide

/-- C6 (amended): the watcher's path filter ignores a path iff some
component equals one of `target`, `.git`, `node_modules`, `.openclaw`;
and for `Create`/`Modify`/`Remove` notify events every non-ignored path
is delivered (in order) on the event channel, while other notify kinds
deliver nothing. -/
theorem c6_path_filter (p : FsPath) (paths : List FsPath) :
    (should_ignore_path p = true ↔
      ∃ c ∈ p, c = "target" ∨ c = ".git" ∨ c = "node_modules" ∨ c = ".openclaw") ∧
    handle_notify_event NotifyKind.create paths
      = (paths.filter fun q => !should_ignore_path q).map WatchEvent.created ∧
    handle_notify_event NotifyKind.modify paths
      = (paths.filter fun q => !should_ignore_path q).map WatchEvent.modified ∧
    handle_notify_event NotifyKind.remove paths
      = (paths.filter fun q => !should_ignore_path q).map WatchEvent.removed ∧
    handle_notify_event NotifyKind.other paths = [] :=
  ⟨should_ignore_path_iff p,
   sendFiltered_eq_filter_map WatchEvent.created paths,
   sendFiltered_eq_filter_map WatchEvent.modified paths,
   sendFiltered_eq_filter_map WatchEvent.removed paths,
   rfl⟩

/-- Witness for `c6_path_filter` at a concrete path and event batch. -/
theorem c6_path_filter_witness :
    (should_ignore_path ["src", ".openclaw", "x.rs"] = true ↔
      ∃ c ∈ (["src", ".openclaw", "x.rs"] : FsPath),
        c = "target" ∨ c = ".git" ∨ c = "node_modules" ∨ c = ".openclaw") ∧
    handle_notify_event NotifyKind.create [["target", "b.rs"], ["a.rs"]]
      = ((([["target", "b.rs"], ["a.rs"]] : List FsPath).filter
          fun q => !should_ignore_path q).map WatchEvent.created) ∧
    handle_notify_event NotifyKind.modify [["target", "b.rs"], ["a.rs"]]
      = ((([["target", "b.rs"], ["a.rs"]] : List FsPath).filter
          fun q => !should_ignore_path q).map WatchEvent.modified) ∧
    handle_notify_event NotifyKind.remove [["target", "b.rs"], ["a.rs"]]
      = ((([["target", "b.rs"], ["a.rs"]] : List FsPath).filter
          fun q => !should_ignore_path q).map WatchEvent.removed) ∧
    handle_notify_event NotifyKind.other [["target", "b.rs"], ["a.rs"]] = [] :=
  c6_path_filter ["src", ".openclaw", "x.rs"] [["target", "b.rs"], ["a.rs"]]

/-! ## C10 — symbol-table `remove_file` frame -/

/-- Erasing one key leaves lookups of other keys unchanged. -/
theorem alookup_aerase_ne {α β : Type} [DecidableEq α]
    (m : List (α × β)) (k n : α) (h : k ≠ n) :
    alookup (aerase m k) n = alookup m n := by
  induction m with
  | nil => rfl
  | cons kv rest ih =>
    obtain ⟨k1, v1⟩ := kv
    by_cases h1 : k1 = k
    · subst h1
      simp [aerase, alookup, h]
    · by_cases h2 : k1 = n <;> simp [aerase, alookup, h1, h2, ih, Ne.symm h]

/-- Erasing a list of keys leaves lookups of keys not in the list
unchanged. -/
theorem alookup_foldl_aerase {α β : Type} [DecidableEq α]
    (syms : List α) (m : List (α × β)) (n : α) (h : n ∉ syms) :
    alookup (syms.foldl (fun acc s => aerase acc s) m) n = alookup m n := by
  induction syms generalizing m with
  | nil => rfl
  | cons s rest ih =>
    simp only [List.mem_cons, not_or] at h
    simpa [List.foldl_cons, ih _ h.2] using alookup_aerase_ne m s n (Ne.symm h.1)

/-- Pushing onto another file's reverse-index entry leaves this file's
entry unchanged. -/
theorem alookup_apush_ne {α β : Type} [DecidableEq α]
    (m : List (α × List β)) (g f : α) (item : β) (h : g ≠ f) :
    alookup (apush m g item) f = alookup m f := by
  induction m with
  | nil => simp [apush, alookup, h]
  | cons kv rest ih =>
    obtain ⟨k1, v1⟩ := kv
    by_cases h1 : k1 = g
    · subst h1
      simp [apush, alookup, h]
    · by_cases h2 : k1 = f <;> simp [apush, alookup, h1, h2, ih, Ne.symm h]

/-- C10 (corrected): `remove_file("f")` drops a name whose *most recent*
insert came from a different file `"g"`, because the reverse index for
`"f"` still lists the name.  The claim's frame property fails at this
two-insert table. -/
theorem c10_counterexample :
    (((SymbolTable.new.insert "n" 1 "f").insert "n" 2 "g").lookup "n" = some 2) ∧
    ((((SymbolTable.new.insert "n" 1 "f").insert "n" 2 "g").remove_file "f").lookup "n"
      ≠ ((SymbolTable.new.insert "n" 1 "f").insert "n" 2 "g").lookup "n") := by decide

/-- C10 (amended): `remove_file(f)` preserves `lookup(n)` for every
qualified name `n` not listed in `f`'s reverse-index entry — i.e. never
inserted with file path `f` since that entry was last dropped; and an
insert with file path `g ≠ f` does not touch `f`'s reverse-index entry.
(A name once inserted under `f` remains listed there even when later
re-inserted from another file, so it is removed — the original claim's
"most recent insert" reading fails, see `c10_counterexample`.) -/
theorem c10_remove_file_frame (t : SymbolTable) (f n qn g : String) (id : Nat)
    (hmem : n ∉ (alookup t.file_symbols f).getD [])
    (hg : g ≠ f) :
    (t.remove_file f).lookup n = t.lookup n ∧
    alookup (t.insert qn id g).file_symbols f = alookup t.file_symbols f := by
  constructor
  · unfold SymbolTable.remove_file
    cases hfs : alookup t.file_symbols f with
    | none => rfl
    | some syms =>
      rw [hfs] at hmem
      simp only [Option.getD_some] at hmem
      simpa [SymbolTable.lookup] using alookup_foldl_aerase syms t.symbols n hmem
  · simpa [SymbolTable.insert] using alookup_apush_ne t.file_symbols g f qn hg

/-- Witness for `c10_remove_file_frame` at a concrete table. -/
theorem c10_remove_file_frame_witness :
    ((((SymbolTable.new.insert "m" 1 "g").remove_file "f").lookup "m"
        = ((SymbolTable.new.insert "m" 1 "g")).lookup "m") ∧
     alookup (((SymbolTable.new.insert "m" 1 "g")).insert "q" 2 "g").file_symbols "f"
        = alookup ((SymbolTable.new.insert "m" 1 "g")).file_symbols "f") :=
  c10_remove_file_frame (SymbolTable.new.insert "m" 1 "g") "f" "m" "q" "g" 2
    (by decide) (by decide)

/-! ## C5 — AI confidence threshold -/

/-- Fold-invariant helper: a property holding of the accumulator and of
everything a step can add holds of the fold's result elements. -/
theorem foldl_mem_preserve {α β : Type} (step : List β → α → List β) (P : β → Prop)
    (hstep : ∀ acc a e, e ∈ step acc a → e ∈ acc ∨ P e) :
    ∀ (l : List α) (acc : List β), (∀ e ∈ acc, P e) → ∀ e ∈ l.foldl step acc, P e := by
  intro l
  induction l with
  | nil => intro acc hacc e he; exact hacc e he
  | cons a rest ih =>
    intro acc hacc e he
    refine ih (step acc a) ?_ e he
    intro e1 he1
    rcases hstep acc a e1 he1 with h | h
    · exact hacc e1 h
    · exact h

/-- C5 (amended): every edge `perform_ai_analysis` constructs is
AI-sourced with confidence at least the *hard-coded* 0.7 — the watcher
never consults `Budget::auto_accept_threshold`. -/
theorem c5_ai_threshold_is_point_seven
    (responses : GraphNode → Except String (List InferredRelationship))
    (path : FsPath) (added_nodes : List GraphNode) (e : GraphEdge)
    (he : e ∈ perform_ai_analysis responses path added_nodes) :
    e.edge_source = EdgeSource.AI ∧ rat07 ≤ e.confidence := by
  unfold perform_ai_analysis at he
  by_cases h0 : added_nodes = []
  · simp [h0] at he
  · rw [if_neg h0] at he
    refine foldl_mem_preserve _
      (fun x => x.edge_source = EdgeSource.AI ∧ rat07 ≤ x.confidence)
      ?_ _ [] (by simp) e he
    intro acc src e1 he1
    cases hr : responses src with
    | error msg =>
      rw [hr] at he1
      exact Or.inl he1
    | ok rels =>
      rw [hr] at he1
      rcases List.mem_append.mp he1 with h | h
      · exact Or.inl h
      · right
        rcases List.mem_map.mp h with ⟨r, hrmem, rfl⟩
        rcases List.mem_filter.mp hrmem with ⟨_, hconf⟩
        exact ⟨rfl, of_decide_eq_true hconf⟩

/-- Witness for `c5_ai_threshold_is_point_seven`: a 0.9-confidence
relationship accepted for a concrete function node. -/
theorem c5_ai_threshold_witness :
    (acceptedCallsEdge rat09).edge_source = EdgeSource.AI ∧
    rat07 ≤ (acceptedCallsEdge rat09).confidence :=
  c5_ai_threshold_is_point_seven (singleRelResponse rat09) ["b.rs"]
    [sampleNode "f" NodeKind.Function] (acceptedCallsEdge rat09) (by decide)

/-- C5 (corrected): the claim's threshold (the configured
`auto_accept_threshold`, default 0.8 per `Budget::new`) is not what the
watcher enforces: a 0.75-confidence AI relationship — below 0.8 —
becomes a graph edge, because `perform_ai_analysis` hard-codes 0.7. -/
theorem c5_counterexample :
    (Budget.new 100000).auto_accept_threshold = rat08 ∧
    ((handle_file_change true (singleRelResponse rat075) ["b.rs"]
        (Except.ok ⟨[sampleNode "f" NodeKind.Function], []⟩)
        ⟨(Graph.new.add_node (sampleNode "g" NodeKind.Function)).1, 0, [], []⟩).map
      (fun p => p.1.graph.all_edges.map fun e => (e.edge_source, e.confidence)))
      = some [(EdgeSource.AI, rat075)] ∧
    rat075 < rat08 := by decide

/-! ## C1 — diff sequence monotonicity -/

/-- C1 (code bug): `handle_file_removal` builds its diff with
`GraphDiff::new(0)` and bumps the engine counter without ever writing
the new sequence into the diff, so every removal diff is emitted with
`sequence = 0`; a structural diff (sequence 1) followed by a removal
diff (sequence 0) violates strict monotonicity. -/
theorem c1_removal_diff_sequence_zero :
    (∀ (s : WatcherState) (path : FsPath) (d : GraphDiff),
        (handle_file_removal path s).2 = some d → d.sequence = 0) ∧
    ((update_graph_incrementally ["a.rs"] ⟨[], []⟩ [] [] WatcherState.initial).map
        (fun p => (p.2.sequence, ((handle_file_removal ["a.rs"] p.1).2).map GraphDiff.sequence))
      = some (1, some 0)) := by
  constructor
  · intro s path d h
    by_cases hc : is_code_file path
    · simp only [handle_file_removal, hc, if_true, Option.some.injEq] at h
      subst h
      rfl
    · simp [handle_file_removal, hc] at h
  · decide

/-- Witness for `c1_removal_diff_sequence_zero` at a concrete removal. -/
theorem c1_removal_diff_sequence_zero_witness :
    (GraphDiff.new 0).sequence = 0 :=
  c1_removal_diff_sequence_zero.1 WatcherState.initial ["a.rs"] (GraphDiff.new 0)
    (by decide)

/-! ## Slot-array facts used throughout (self-contained `List.get?` facts) -/

/-- Setting a slot in range makes that slot read back the new value. -/
theorem get?_set_self {α : Type} (l : List α) (i : Nat) (a : α) (h : i < l.length) :
    (l.set i a).get? i = some a := by
  induction l generalizing i with
  | nil => simp at h
  | cons x rest ih =>
    cases i with
    | zero => rfl
    | succ j => simpa using ih j (by simpa using h)

/-- Setting one slot leaves the others unchanged. -/
theorem get?_set_ne' {α : Type} (l : List α) (i j : Nat) (a : α) (h : i ≠ j) :
    (l.set i a).get? j = l.get? j := by
  induction l generalizing i j with
  | nil => rfl
  | cons x rest ih =>
    cases i with
    | zero =>
      cases j with
      | zero => exact absurd rfl h
      | succ k => rfl
    | succ i1 =>
      cases j with
      | zero => rfl
      | succ k => simpa using ih i1 k (fun hc => h (by rw [hc]))

/-- Reading below the length of the left part of an append stays left. -/
theorem get?_append_left' {α : Type} (l l2 : List α) (i : Nat) (h : i < l.length) :
    (l ++ l2).get? i = l.get? i := by
  induction l generalizing i with
  | nil => simp at h
  | cons x rest ih =>
    cases i with
    | zero => rfl
    | succ j => simpa using ih j (by simpa using h)

/-- Reading an append at exactly the left length yields the appended head. -/
theorem get?_append_length {α : Type} (l : List α) (a : α) :
    (l ++ [a]).get? l.length = some a := by
  induction l with
  | nil => rfl
  | cons x rest ih => exact ih

/-- Reading at or beyond the length yields `none`. -/
theorem get?_len_none {α : Type} (l : List α) (i : Nat) (h : l.length ≤ i) :
    l.get? i = none := by
  induction l generalizing i with
  | nil => rfl
  | cons x rest ih =>
    cases i with
    | zero => simp at h
    | succ j => simpa using ih j (by simpa using h)

/-- A successful read is in range. -/
theorem get?_lt {α : Type} (l : List α) (i : Nat) (a : α) (h : l.get? i = some a) :
    i < l.length := by
  induction l generalizing i with
  | nil => simp [List.get?] at h
  | cons x rest ih =>
    cases i with
    | zero => simp
    | succ j => simpa using ih j (by simpa using h)

/-- Lookups only depend on the node slots. -/
theorem node_congr (g1 g2 : Graph) (h : g1.nodes = g2.nodes) (i : Nat) :
    Graph.node g1 i = Graph.node g2 i := by
  unfold Graph.node; rw [h]

/-! ## C9 — `compute_diff` node filtering -/

/-- A successful `Graph.node` read is in range. -/
theorem node_lt_length (g : Graph) (i : Nat) (n : GraphNode)
    (h : g.node i = some n) : i < g.nodes.length := by
  unfold Graph.node at h
  cases hg : g.nodes.get? i with
  | none => rw [hg] at h; simp at h
  | some o => exact get?_lt _ _ _ hg

/-- Membership in `nodes_of_kind`: exactly the live indices holding a
node of that kind. -/
theorem mem_nodes_of_kind (g : Graph) (k : NodeKind) (i : Nat) :
    i ∈ g.nodes_of_kind k ↔ ∃ n, g.node i = some n ∧ n.kind = k := by
  unfold Graph.nodes_of_kind
  rw [List.mem_filter, List.mem_range]
  constructor
  · rintro ⟨hlt, hp⟩
    cases hn : g.node i with
    | none => rw [hn] at hp; simp at hp
    | some n =>
      rw [hn] at hp
      simp only [decide_eq_true_eq] at hp
      exact ⟨n, rfl, hp⟩
  · rintro ⟨n, hn, hk⟩
    refine ⟨node_lt_length g i n hn, ?_⟩
    rw [hn]
    simp [hk]

/-- C9: `DiffEngine::compute_diff` reports only `Unknown`-kind nodes in
its node lists (any other kind never appears there), while its edge
lists report every live-edge difference regardless of edge kind. -/
theorem c9_compute_diff_unknown_only (seq : Nat) (old_graph new_graph : Graph) :
    (∀ n ∈ (computeDiff seq old_graph new_graph).2.added_nodes,
        n.kind = NodeKind.Unknown) ∧
    (∀ i ∈ (computeDiff seq old_graph new_graph).2.removed_nodes,
        ∃ n, old_graph.node i = some n ∧ n.kind = NodeKind.Unknown) ∧
    (∀ e ∈ new_graph.all_edges, (old_graph.edge e.id).isNone = true →
        e ∈ (computeDiff seq old_graph new_graph).2.added_edges) ∧
    (∀ e ∈ old_graph.all_edges, (new_graph.edge e.id).isNone = true →
        e.id ∈ (computeDiff seq old_graph new_graph).2.removed_edges) := by
  refine ⟨?_, ?_, ?_, ?_⟩
  · intro n hn
    simp only [computeDiff] at hn
    rcases List.mem_filterMap.mp hn with ⟨i, hi, hf⟩
    rcases (mem_nodes_of_kind _ _ _).mp hi with ⟨m, hm, hk⟩
    by_cases ho : (old_graph.node i).isNone
    · rw [if_pos ho, hm] at hf
      cases hf
      exact hk
    · rw [if_neg ho] at hf
      cases hf
  · intro i hi
    simp only [computeDiff] at hi
    rcases List.mem_filter.mp hi with ⟨hmem, _⟩
    exact (mem_nodes_of_kind _ _ _).mp hmem
  · intro e he hnone
    simp only [computeDiff]
    exact List.mem_filter.mpr ⟨he, by simp [hnone]⟩
  · intro e he hnone
    simp only [computeDiff]
    exact List.mem_map.mpr ⟨e, List.mem_filter.mpr ⟨he, by simp [hnone]⟩, rfl⟩

/-- Witness for `c9_compute_diff_unknown_only` at concrete graphs: the
empty graph versus one holding a single `Unknown` node. -/
theorem c9_compute_diff_unknown_only_witness :
    (∀ n ∈ (computeDiff 0 Graph.new
        (Graph.new.add_node (sampleNode "u" NodeKind.Unknown)).1).2.added_nodes,
        n.kind = NodeKind.Unknown) ∧
    (∀ i ∈ (computeDiff 0 Graph.new
        (Graph.new.add_node (sampleNode "u" NodeKind.Unknown)).1).2.removed_nodes,
        ∃ n, Graph.node Graph.new i = some n ∧ n.kind = NodeKind.Unknown) ∧
    (∀ e ∈ (Graph.new.add_node (sampleNode "u" NodeKind.Unknown)).1.all_edges,
        (Graph.edge Graph.new e.id).isNone = true →
        e ∈ (computeDiff 0 Graph.new
          (Graph.new.add_node (sampleNode "u" NodeKind.Unknown)).1).2.added_edges) ∧
    (∀ e ∈ Graph.all_edges Graph.new,
        (Graph.edge (Graph.new.add_node (sampleNode "u" NodeKind.Unknown)).1 e.id).isNone
          = true →
        e.id ∈ (computeDiff 0 Graph.new
          (Graph.new.add_node (sampleNode "u" NodeKind.Unknown)).1).2.removed_edges) :=
  c9_compute_diff_unknown_only 0 Graph.new
    (Graph.new.add_node (sampleNode "u" NodeKind.Unknown)).1

/-! ## C4 — id allocation in the graph store -/

/-- The empty store is well formed. -/
theorem wf_new : Graph.WF Graph.new := by decide

/-- The two shapes `add_node` can take: append to the slot array, or
pop the free-list head. -/
theorem add_node_eq (g : Graph) (n : GraphNode) :
    (g.freeNodes = [] ∧ (g.add_node n).2 = g.nodes.length ∧
      (g.add_node n).1 = { g with nodes := g.nodes ++ [some n] }) ∨
    (∃ rest, g.freeNodes = (g.add_node n).2 :: rest ∧
      (g.add_node n).1 =
        { g with
            nodes := g.nodes.set (g.add_node n).2 (some n)
            freeNodes := rest }) := by
  cases hf : g.freeNodes with
  | nil =>
    left
    refine ⟨rfl, ?_, ?_⟩ <;> (unfold Graph.add_node; rw [hf])
  | cons i rest =>
    right
    have h2 : (g.add_node n).2 = i := by unfold Graph.add_node; rw [hf]
    refine ⟨rest, ?_, ?_⟩
    · rw [h2]
    · rw [h2]; unfold Graph.add_node; rw [hf]

/-- Under well-formedness, `add_node` hands out an id that is not the id
of any live node. -/
theorem add_node_fresh (g : Graph) (n : GraphNode) (hwf : g.WF) :
    Graph.node g (g.add_node n).2 = none := by
  rcases add_node_eq g n with ⟨hf, hi, _⟩ | ⟨rest, hf, _⟩
  · rw [hi]
    unfold Graph.node
    rw [get?_len_none _ _ (Nat.le_refl _)]
    rfl
  · have hv := hwf.1 _ (by rw [hf]; exact List.mem_cons_self _ _)
    unfold Graph.node
    rw [hv]
    rfl

/-- The returned id reads back the stored node. -/
theorem add_node_stores (g : Graph) (n : GraphNode) (hwf : g.WF) :
    (g.add_node n).1.node (g.add_node n).2 = some n := by
  rcases add_node_eq g n with ⟨hf, hi, hg⟩ | ⟨rest, hf, hg⟩
  · rw [hg]
    show ((g.nodes ++ [some n]).get? (g.add_node n).2).join = some n
    rw [hi, get?_append_length]
    rfl
  · rw [hg]
    show ((g.nodes.set (g.add_node n).2 (some n)).get? (g.add_node n).2).join = some n
    have hv := hwf.1 _ (by rw [hf]; exact List.mem_cons_self _ _)
    rw [get?_set_self _ _ _ (get?_lt _ _ _ hv)]
    rfl

/-- `add_node` preserves well-formedness. -/
theorem wf_add_node (g : Graph) (n : GraphNode) (hwf : g.WF) :
    (g.add_node n).1.WF := by
  obtain ⟨hfn, hnd, hfe, hed⟩ := hwf
  rcases add_node_eq g n with ⟨hf, hi, hg⟩ | ⟨rest, hf, hg⟩
  · rw [hg]
    refine ⟨?_, hnd, hfe, hed⟩
    intro j hj
    show (g.nodes ++ [some n]).get? j = some none
    have hv := hfn j hj
    rw [get?_append_left' _ _ _ (get?_lt _ _ _ hv)]
    exact hv
  · rw [hg]
    have hnd' : ((g.add_node n).2 :: rest).Nodup := hf ▸ hnd
    refine ⟨?_, (List.nodup_cons.mp hnd').2, hfe, hed⟩
    intro j hj
    show (g.nodes.set (g.add_node n).2 (some n)).get? j = some none
    have hjmem : j ∈ g.freeNodes := by
      rw [hf]; exact List.mem_cons_of_mem _ hj
    have hne : (g.add_node n).2 ≠ j :=
      fun hij => (List.nodup_cons.mp hnd').1 (hij ▸ hj)
    rw [get?_set_ne' _ _ _ _ hne]
    exact hfn j hjmem

/-- With an empty free list, node ids are allocated monotonically: the
fresh id is the slot count, strictly above every live id. -/
theorem add_node_mono (g : Graph) (n : GraphNode) (hfree : g.freeNodes = []) :
    (g.add_node n).2 = g.nodes.length ∧
    ∀ j, (Graph.node g j).isSome → j < (g.add_node n).2 := by
  rcases add_node_eq g n with ⟨hf, hi, _⟩ | ⟨rest, hf, _⟩
  · refine ⟨hi, ?_⟩
    intro j hj
    rw [hi]
    cases hn : Graph.node g j with
    | none => rw [hn] at hj; simp at hj
    | some m =>
      unfold Graph.node at hn
      cases hg : g.nodes.get? j with
      | none => rw [hg] at hn; simp at hn
      | some o => exact get?_lt _ _ _ hg
  · rw [hfree] at hf; cases hf

/-- The two shapes a successful `add_edge` can take, with the endpoint
guard it checked. -/
theorem add_edge_eq (g : Graph) (e : GraphEdge) (g1 : Graph) (i : Nat)
    (h : g.add_edge e = some (g1, i)) :
    (g.node e.source).isSome ∧ (g.node e.target).isSome ∧
    ((g.freeEdges = [] ∧ i = g.edges.length ∧
       g1 = { g with edges := g.edges ++ [some e] }) ∨
     (∃ rest, g.freeEdges = i :: rest ∧
       g1 =
         { g with
             edges := g.edges.set i (some e)
             freeEdges := rest })) := by
  unfold Graph.add_edge at h
  by_cases hc : (g.node e.source).isSome ∧ (g.node e.target).isSome
  · rw [if_pos hc] at h
    refine ⟨hc.1, hc.2, ?_⟩
    cases hf : g.freeEdges with
    | nil =>
      rw [hf] at h
      simp only [Option.some.injEq, Prod.mk.injEq] at h
      exact Or.inl ⟨rfl, h.2.symm, h.1.symm⟩
    | cons j rest =>
      rw [hf] at h
      simp only [Option.some.injEq, Prod.mk.injEq] at h
      obtain ⟨hg1, hji⟩ := h
      subst hji
      exact Or.inr ⟨rest, rfl, hg1.symm⟩
  · rw [if_neg hc] at h
    cases h

/-- `add_edge` does not touch the node side. -/
theorem add_edge_nodes_eq (g : Graph) (e : GraphEdge) (g1 : Graph) (i : Nat)
    (h : g.add_edge e = some (g1, i)) : g1.nodes = g.nodes := by
  rcases add_edge_eq g e g1 i h with ⟨_, _, ⟨_, _, rfl⟩ | ⟨rest, _, rfl⟩⟩ <;> rfl

/-- Under well-formedness, a successful `add_edge` hands out an id that
is not the id of any live edge. -/
theorem add_edge_fresh (g : Graph) (e : GraphEdge) (g1 : Graph) (i : Nat)
    (hwf : g.WF) (h : g.add_edge e = some (g1, i)) :
    Graph.edge g i = none := by
  rcases add_edge_eq g e g1 i h with ⟨_, _, ⟨hf, hi, _⟩ | ⟨rest, hf, _⟩⟩
  · subst hi
    unfold Graph.edge
    rw [get?_len_none _ _ (Nat.le_refl _)]
    rfl
  · have hv := hwf.2.2.1 i (by rw [hf]; exact List.mem_cons_self _ _)
    unfold Graph.edge
    rw [hv]
    rfl

/-- A successful `add_edge` preserves well-formedness. -/
theorem wf_add_edge (g : Graph) (e : GraphEdge) (g1 : Graph) (i : Nat)
    (hwf : g.WF) (h : g.add_edge e = some (g1, i)) : g1.WF := by
  obtain ⟨hfn, hnd, hfe, hed⟩ := hwf
  rcases add_edge_eq g e g1 i h with ⟨_, _, ⟨hf, hi, rfl⟩ | ⟨rest, hf, rfl⟩⟩
  · refine ⟨hfn, hnd, ?_, hed⟩
    intro j hj
    show (g.edges ++ [some e]).get? j = some none
    have hv := hfe j hj
    rw [get?_append_left' _ _ _ (get?_lt _ _ _ hv)]
    exact hv
  · have hnd' : (i :: rest).Nodup := hf ▸ hed
    refine ⟨hfn, hnd, ?_, (List.nodup_cons.mp hnd').2⟩
    intro j hj
    show (g.edges.set i (some e)).get? j = some none
    have hjmem : j ∈ g.freeEdges := by
      rw [hf]; exact List.mem_cons_of_mem _ hj
    have hne : i ≠ j := fun hij => (List.nodup_cons.mp hnd').1 (hij ▸ hj)
    rw [get?_set_ne' _ _ _ _ hne]
    exact hfe j hjmem

/-- With an empty edge free list, edge ids are allocated monotonically. -/
theorem add_edge_mono (g : Graph) (e : GraphEdge) (g1 : Graph) (i : Nat)
    (hfree : g.freeEdges = []) (h : g.add_edge e = some (g1, i)) :
    i = g.edges.length ∧ ∀ j, (Graph.edge g j).isSome → j < i := by
  rcases add_edge_eq g e g1 i h with ⟨_, _, ⟨hf, hi, _⟩ | ⟨rest, hf, _⟩⟩
  · subst hi
    refine ⟨rfl, ?_⟩
    intro j hj
    cases he : Graph.edge g j with
    | none => rw [he] at hj; simp at hj
    | some o =>
      unfold Graph.edge at he
      cases hg : g.edges.get? j with
      | none => rw [hg] at he; simp at he
      | some oo => exact get?_lt _ _ _ hg
  · rw [hfree] at hf; cases hf

/-- `remove_edge` does not touch the node side. -/
theorem remove_edge_nodes (g : Graph) (i : Nat) :
    (g.remove_edge i).nodes = g.nodes ∧ (g.remove_edge i).freeNodes = g.freeNodes := by
  unfold Graph.remove_edge
  cases Graph.edge g i <;> exact ⟨rfl, rfl⟩

/-- `remove_edge` preserves well-formedness. -/
theorem wf_remove_edge (g : Graph) (i : Nat) (hwf : g.WF) :
    (g.remove_edge i).WF := by
  obtain ⟨hfn, hnd, hfe, hed⟩ := hwf
  unfold Graph.remove_edge
  cases he : Graph.edge g i with
  | none => exact ⟨hfn, hnd, hfe, hed⟩
  | some e =>
    have hlive : ∀ hmem : i ∈ g.freeEdges, False := by
      intro hmem
      have hv := hfe i hmem
      unfold Graph.edge at he
      rw [hv] at he
      cases he
    refine ⟨hfn, hnd, ?_, List.nodup_cons.mpr ⟨fun hmem => hlive hmem, hed⟩⟩
    intro j hj
    show (g.edges.set i none).get? j = some none
    rcases List.mem_cons.mp hj with rfl | hj'
    · have hlt : j < g.edges.length := by
        unfold Graph.edge at he
        cases hg : g.edges.get? j with
        | none => rw [hg] at he; cases he
        | some o => exact get?_lt _ _ _ hg
      exact get?_set_self _ _ _ hlt
    · have hne : i ≠ j := by
        intro hij
        subst hij
        have hv := hfe i hj'
        unfold Graph.edge at he
        rw [hv] at he
        cases he
      rw [get?_set_ne' _ _ _ _ hne]
      exact hfe j hj'

/-- The edge-removal cascade preserves well-formedness and the node
side. -/
theorem wf_fold_remove_edge (l : List Nat) (g : Graph) (hwf : g.WF) :
    (l.foldl (fun acc j => acc.remove_edge j) g).WF ∧
    (l.foldl (fun acc j => acc.remove_edge j) g).nodes = g.nodes ∧
    (l.foldl (fun acc j => acc.remove_edge j) g).freeNodes = g.freeNodes := by
  induction l generalizing g with
  | nil => exact ⟨hwf, rfl, rfl⟩
  | cons j rest ih =>
    simp only [List.foldl_cons]
    obtain ⟨h1, h2, h3⟩ := ih (g.remove_edge j) (wf_remove_edge g j hwf)
    exact ⟨h1, h2.trans (remove_edge_nodes g j).1, h3.trans (remove_edge_nodes g j).2⟩

/-- `remove_node` preserves well-formedness. -/
theorem wf_remove_node (g : Graph) (i : Nat) (hwf : g.WF) :
    (g.remove_node i).WF := by
  unfold Graph.remove_node
  cases hn : Graph.node g i with
  | none => exact hwf
  | some m =>
    obtain ⟨hwf1, hnodes, hfree⟩ :=
      wf_fold_remove_edge (g.incidentEdges i) g hwf
    obtain ⟨hfn1, hnd1, hfe1, hed1⟩ := hwf1
    have hi_not_free : i ∉ g.freeNodes := by
      intro hmem
      have hv := hwf.1 i hmem
      unfold Graph.node at hn
      rw [hv] at hn
      cases hn
    refine ⟨?_, ?_, hfe1, hed1⟩
    · intro j hj
      show (((g.incidentEdges i).foldl (fun acc j => acc.remove_edge j) g).nodes.set
        i none).get? j = some none
      rcases List.mem_cons.mp hj with heq | hj'
      · subst heq
        refine get?_set_self _ _ _ ?_
        rw [hnodes]
        unfold Graph.node at hn
        cases hg : g.nodes.get? j with
        | none => rw [hg] at hn; cases hn
        | some o => exact get?_lt _ _ _ hg
      · have hne : i ≠ j := by
          intro hij
          subst hij
          exact hi_not_free (hfree ▸ hj')
        rw [get?_set_ne' _ _ _ _ hne]
        exact hfn1 j hj'
    · exact List.nodup_cons.mpr ⟨fun hmem => hi_not_free (hfree ▸ hmem), hnd1⟩

/-- C4 (corrected): on a well-formed store (and all stores reachable from
`Graph::new` are well formed — the preservation conjuncts), an insertion
never returns the id of a *live* entity, it stores the entity under the
returned id, and with no free slots allocation is monotonic; but — see
`c4_counterexample` — the index of a *removed* entity is reused. -/
theorem c4_id_allocation (g : Graph) (n : GraphNode) (e : GraphEdge) (hwf : g.WF) :
    Graph.WF Graph.new ∧
    Graph.node g (g.add_node n).2 = none ∧
    (g.add_node n).1.node (g.add_node n).2 = some n ∧
    (g.add_node n).1.WF ∧
    (g.freeNodes = [] → (g.add_node n).2 = g.nodes.length ∧
      ∀ j, (Graph.node g j).isSome → j < (g.add_node n).2) ∧
    (∀ g1 i, g.add_edge e = some (g1, i) → Graph.edge g i = none ∧ g1.WF) ∧
    (g.freeEdges = [] → ∀ g1 i, g.add_edge e = some (g1, i) →
      i = g.edges.length ∧ ∀ j, (Graph.edge g j).isSome → j < i) ∧
    (∀ i, (g.remove_node i).WF) ∧
    (∀ i, (g.remove_edge i).WF) :=
  ⟨wf_new, add_node_fresh g n hwf, add_node_stores g n hwf, wf_add_node g n hwf,
   fun hf => add_node_mono g n hf,
   fun g1 i h => ⟨add_edge_fresh g e g1 i hwf h, wf_add_edge g e g1 i hwf h⟩,
   fun hf g1 i h => add_edge_mono g e g1 i hf h,
   fun i => wf_remove_node g i hwf,
   fun i => wf_remove_edge g i hwf⟩

/-- Witness for `c4_id_allocation` at a one-node store. -/
theorem c4_id_allocation_witness :
    Graph.node ((Graph.new.add_node (sampleNode "a" NodeKind.Function)).1)
      (((Graph.new.add_node (sampleNode "a" NodeKind.Function)).1.add_node
        (sampleNode "b" NodeKind.Method)).2) = none ∧
    ((Graph.new.add_node (sampleNode "a" NodeKind.Function)).1.add_node
      (sampleNode "b" NodeKind.Method)).1.WF :=
  ⟨(c4_id_allocation (Graph.new.add_node (sampleNode "a" NodeKind.Function)).1
      (sampleNode "b" NodeKind.Method) sampleImportEdge (by decide)).2.1,
   (c4_id_allocation (Graph.new.add_node (sampleNode "a" NodeKind.Function)).1
      (sampleNode "b" NodeKind.Method) sampleImportEdge (by decide)).2.2.2.1⟩

/-- C4 (counterexample): petgraph's stable indices are reused after
removal — inserting `a` yields id 0, removing it and inserting the
different entity `b` yields id 0 again, so "an id of a removed entity is
never returned again" fails. -/
theorem c4_counterexample :
    (Graph.new.add_node (sampleNode "a" NodeKind.Function)).2 = 0 ∧
    (((Graph.new.add_node (sampleNode "a" NodeKind.Function)).1.remove_node 0).add_node
        (sampleNode "b" NodeKind.Method)).2 = 0 ∧
    sampleNode "a" NodeKind.Function ≠ sampleNode "b" NodeKind.Method := by decide

/-! ## C2 — placeholder edge endpoints -/

/-- What the edge-insertion loop guarantees: the node side is untouched,
every inserted copy keeps the extractor-emitted fields except `id`, and
(because `add_edge` checks its endpoints) the endpoints of every inserted
edge are live in the resulting graph. -/
theorem insertEdges_spec (es : List GraphEdge) :
    ∀ (g g1 : Graph) (ids : List Nat) (patched : List GraphEdge),
      insertEdges g es = some (g1, ids, patched) →
      g1.nodes = g.nodes ∧
      patched.map (fun e => (e.source, e.target))
        = es.map (fun e => (e.source, e.target)) ∧
      (∀ e ∈ patched, ∃ e0 ∈ es, e.source = e0.source ∧ e.target = e0.target ∧
        e.kind = e0.kind ∧ e.edge_source = e0.edge_source ∧
        e.confidence = e0.confidence) ∧
      (∀ e ∈ patched, (g1.node e.source).isSome ∧ (g1.node e.target).isSome) := by
  induction es with
  | nil =>
    intro g g1 ids patched h
    unfold insertEdges at h
    simp only [Option.some.injEq, Prod.mk.injEq] at h
    obtain ⟨hg, _, hp⟩ := h
    subst hg
    subst hp
    exact ⟨rfl, rfl, by simp, by simp⟩
  | cons e rest ih =>
    intro g g1 ids patched h
    unfold insertEdges at h
    cases hae : g.add_edge e with
    | none => rw [hae] at h; cases h
    | some p =>
      obtain ⟨ga, i⟩ := p
      rw [hae] at h
      dsimp only at h
      cases hie : insertEdges ga rest with
      | none => rw [hie] at h; cases h
      | some q =>
        obtain ⟨gb, ids2, patched2⟩ := q
        rw [hie] at h
        dsimp only at h
        simp only [Option.some.injEq, Prod.mk.injEq] at h
        obtain ⟨hg, _, hp⟩ := h
        subst hg
        subst hp
        obtain ⟨hnodes, hmap, hmem, hlive⟩ := ih ga gb ids2 patched2 hie
        have hanodes := add_edge_nodes_eq g e ga i hae
        have hguard := (add_edge_eq g e ga i hae).1
        have hguard2 := (add_edge_eq g e ga i hae).2.1
        refine ⟨hnodes.trans hanodes, ?_, ?_, ?_⟩
        · simp only [List.map_cons]
          rw [hmap]
        · intro x hx
          rcases List.mem_cons.mp hx with rfl | hx'
          · exact ⟨e, List.mem_cons_self e rest, rfl, rfl, rfl, rfl, rfl⟩
          · obtain ⟨e0, he0, hfields⟩ := hmem x hx'
            exact ⟨e0, List.mem_cons_of_mem e he0, hfields⟩
        · intro x hx
          have hnode_eq : ∀ k, Graph.node gb k = Graph.node g k :=
            node_congr gb g (hnodes.trans hanodes)
          rcases List.mem_cons.mp hx with rfl | hx'
          · exact ⟨by rw [hnode_eq]; exact hguard, by rw [hnode_eq]; exact hguard2⟩
          · exact hlive x hx'

/-- C2 (counterexample): the per-file update does *not* rewrite the
extractor's placeholder endpoints.  Inserting into a store whose only
live node (id 0, from another file) pre-exists, a one-node one-edge
extraction assigns the new node id 1, yet the inserted edge keeps its
placeholder endpoints `(0, 0)` — which are not among the ids assigned to
this file's nodes. -/
theorem c2_counterexample :
    ((update_graph_incrementally ["b.rs"]
        ⟨[sampleNode "f" NodeKind.Function], [sampleImportEdge]⟩ [] []
        ⟨(Graph.new.add_node (sampleNode "a" NodeKind.Function)).1, 0, [], []⟩).map
      (fun p => (p.2.added_edges.map fun e => (e.source, e.target),
                 (alookup p.1.fileToNodes ["b.rs"]).getD [])))
      = some ([(0, 0)], [1]) ∧
    sampleImportEdge.source = 0 ∧ sampleImportEdge.target = 0 := by decide

/-- C2 (amended): `update_graph_incrementally` inserts the extracted
edges with their extractor-emitted `source`/`target` unchanged — no
mapping from extractor-local positions to assigned ids is applied; what
holds instead is that `add_edge` refuses dead endpoints (a panic aborts
the update), so whenever the update completes, every inserted edge's
endpoints are ids of nodes currently in the graph. -/
theorem c2_update_edges_verbatim_endpoints_live (path : FsPath)
    (ex : ExtractionResult) (old_nodes old_edges : List Nat) (s : WatcherState) :
    ∀ s1 d, update_graph_incrementally path ex old_nodes old_edges s = some (s1, d) →
      d.added_edges.map (fun e => (e.source, e.target))
          = ex.edges.map (fun e => (e.source, e.target)) ∧
      ∀ e ∈ d.added_edges,
        (s1.graph.node e.source).isSome ∧ (s1.graph.node e.target).isSome := by
  intro s1 d h
  unfold update_graph_incrementally at h
  simp only [] at h
  split at h
  · cases h
  · rename_i g3 new_edge_ids added_edges hie
    simp only [Option.some.injEq, Prod.mk.injEq] at h
    obtain ⟨hs1, hd⟩ := h
    subst hs1
    subst hd
    obtain ⟨hnodes, hmap, hmem, hlive⟩ :=
      insertEdges_spec ex.edges _ g3 new_edge_ids added_edges hie
    exact ⟨hmap, hlive⟩

/-- Witness for `c2_update_edges_verbatim_endpoints_live` at the
concrete update of `c2_counterexample`, with the resulting state and
diff written out. -/
theorem c2_update_edges_verbatim_witness :
    ((⟨1, [{ (sampleNode "f" NodeKind.Function) with id := 1 }], [],
        [{ sampleImportEdge with id := 0 }], [], []⟩ : GraphDiff).added_edges.map
          (fun e => (e.source, e.target))
        = (⟨[sampleNode "f" NodeKind.Function], [sampleImportEdge]⟩
            : ExtractionResult).edges.map (fun e => (e.source, e.target))) ∧
    (∀ e ∈ (⟨1, [{ (sampleNode "f" NodeKind.Function) with id := 1 }], [],
        [{ sampleImportEdge with id := 0 }], [], []⟩ : GraphDiff).added_edges,
      (Graph.node (⟨⟨[some (sampleNode "a" NodeKind.Function),
            some (sampleNode "f" NodeKind.Function)],
            [some sampleImportEdge], [], []⟩, 1, [(["b.rs"], [1])], [(["b.rs"], [0])]⟩
          : WatcherState).graph e.source).isSome ∧
      (Graph.node (⟨⟨[some (sampleNode "a" NodeKind.Function),
            some (sampleNode "f" NodeKind.Function)],
            [some sampleImportEdge], [], []⟩, 1, [(["b.rs"], [1])], [(["b.rs"], [0])]⟩
          : WatcherState).graph e.target).isSome) :=
  c2_update_edges_verbatim_endpoints_live ["b.rs"]
    ⟨[sampleNode "f" NodeKind.Function], [sampleImportEdge]⟩ [] []
    ⟨(Graph.new.add_node (sampleNode "a" NodeKind.Function)).1, 0, [], []⟩
    ⟨⟨[some (sampleNode "a" NodeKind.Function), some (sampleNode "f" NodeKind.Function)],
        [some sampleImportEdge], [], []⟩, 1, [(["b.rs"], [1])], [(["b.rs"], [0])]⟩
    ⟨1, [{ (sampleNode "f" NodeKind.Function) with id := 1 }], [],
        [{ sampleImportEdge with id := 0 }], [], []⟩
    (by decide)

/-! ## C3 — AI pass scheduling and diff delivery -/

/-- Every edge in the structural diff comes from the extraction result
(only its `id` is patched). -/
theorem update_added_edges_mem (path : FsPath) (ex : ExtractionResult)
    (old_nodes old_edges : List Nat) (s : WatcherState) :
    ∀ s1 d, update_graph_incrementally path ex old_nodes old_edges s = some (s1, d) →
      ∀ e ∈ d.added_edges, ∃ e0 ∈ ex.edges,
        e.source = e0.source ∧ e.target = e0.target ∧ e.kind = e0.kind ∧
        e.edge_source = e0.edge_source ∧ e.confidence = e0.confidence := by
  intro s1 d h
  unfold update_graph_incrementally at h
  simp only [] at h
  split at h
  · cases h
  · rename_i g3 new_edge_ids added_edges hie
    simp only [Option.some.injEq, Prod.mk.injEq] at h
    obtain ⟨hs1, hd⟩ := h
    subst hs1
    subst hd
    exact (insertEdges_spec ex.edges _ g3 new_edge_ids added_edges hie).2.2.1

/-- C3 (amended): when the AI provider is configured and extraction on a
code file succeeds, `handle_file_change` hands the broadcaster *exactly
one* diff — the structural one, whose added edges all come from the
extraction — i.e. the AI pass (which ran inline, before the broadcast)
never produces a second diff and its accepted edges are never
broadcast. -/
theorem c3_single_structural_diff
    (resp : GraphNode → Except String (List InferredRelationship))
    (path : FsPath) (ex : ExtractionResult) (s : WatcherState)
    (hcode : is_code_file path = true) :
    ∀ s2 diffs, handle_file_change true resp path (Except.ok ex) s = some (s2, diffs) →
      diffs.length = 1 ∧
      ∀ d ∈ diffs, ∀ e ∈ d.added_edges, ∃ e0 ∈ ex.edges,
        e.source = e0.source ∧ e.target = e0.target ∧ e.kind = e0.kind ∧
        e.edge_source = e0.edge_source := by
  intro s2 diffs h
  unfold handle_file_change at h
  rw [hcode] at h
  simp only [if_true] at h
  split at h
  · cases h
  · rename_i s1 graph_diff hupd
    split at h
    · cases h
    · rename_i st hst
      simp only [Option.some.injEq, Prod.mk.injEq] at h
      obtain ⟨hs2, hdiffs⟩ := h
      subst hdiffs
      refine ⟨rfl, ?_⟩
      intro d hd e he
      rcases List.mem_singleton.mp hd with rfl
      obtain ⟨e0, he0, h1, h2, h3, h4, _⟩ :=
        update_added_edges_mem path ex _ _ s s1 d hupd e he
      exact ⟨e0, he0, h1, h2, h3, h4⟩

/-- Witness for `c3_single_structural_diff` at a concrete empty
extraction. -/
theorem c3_single_structural_diff_witness :
    is_code_file ["b.rs"] = true ∧
    (∀ s2 diffs, handle_file_change true (fun _ => Except.ok []) ["b.rs"]
        (Except.ok ⟨[], []⟩) WatcherState.initial = some (s2, diffs) →
      diffs.length = 1 ∧
      ∀ d ∈ diffs, ∀ e ∈ d.added_edges, ∃ e0 ∈ (⟨[], []⟩ : ExtractionResult).edges,
        e.source = e0.source ∧ e.target = e0.target ∧ e.kind = e0.kind ∧
        e.edge_source = e0.edge_source) :=
  ⟨by decide,
   c3_single_structural_diff (fun _ => Except.ok []) ["b.rs"] ⟨[], []⟩
     WatcherState.initial (by decide)⟩

/-- C3 (counterexample): a 0.9-confidence relationship is accepted — the
final graph holds the AI edge — yet only one diff is handed to the
broadcaster and it contains no added edges at all, so the accepted AI
relationship is never delivered as its own second diff. -/
theorem c3_counterexample :
    ((handle_file_change true (singleRelResponse rat09) ["b.rs"]
        (Except.ok ⟨[sampleNode "f" NodeKind.Function], []⟩)
        ⟨(Graph.new.add_node (sampleNode "g" NodeKind.Function)).1, 0, [], []⟩).map
      (fun p => (p.2.length,
                 p.2.map (fun d => d.added_edges.length),
                 p.1.graph.all_edges.map (fun e => (e.edge_source, e.confidence)))))
      = some (1, [0], [(EdgeSource.AI, rat09)]) := by decide

/-! ## C7 — extractor qualified names -/

/-- A node built by `extract_function` has `qualified_name =
"{path}::{name}"` — the container is never consulted. -/
theorem extract_function_qn (n : TSNode) (path : FsPath) (g : GraphNode)
    (h : extract_function n path = some g) :
    g.qualified_name = pathDisplay path ++ "::" ++ g.name := by
  unfold extract_function at h
  split at h
  · simp only [] at h
    split at h
    · rename_i idNode hfc
      simp only [Option.some.injEq] at h
      subst h
      rfl
    · cases h
  · cases h

/-- A node built by `extract_struct` has `qualified_name =
"{path}::{name}"`. -/
theorem extract_struct_qn (n : TSNode) (path : FsPath) (g : GraphNode)
    (h : extract_struct n path = some g) :
    g.qualified_name = pathDisplay path ++ "::" ++ g.name := by
  unfold extract_struct at h
  split at h
  · simp only [] at h
    split at h
    · rename_i idNode hfc
      simp only [Option.some.injEq] at h
      subst h
      rfl
    · cases h
  · cases h

/-- Every method collected from a `declaration_list` keeps the
path-only qualified-name shape. -/
theorem declListMethods_qn (path : FsPath) :
    ∀ (f : TSForest), ∀ g ∈ declListMethods path f,
      g.qualified_name = pathDisplay path ++ "::" ++ g.name
  | TSForest.nil, g, hg => by simp [declListMethods] at hg
  | TSForest.cons fld m rest, g, hg => by
    unfold declListMethods at hg
    rcases List.mem_append.mp hg with h | h
    · cases hf : extract_function m path with
      | none => rw [hf] at h; simp at h
      | some gm =>
        rw [hf] at h
        simp only [Option.toList_some, List.mem_singleton] at h
        subst h
        exact extract_function_qn m path g hf
    · exact declListMethods_qn path rest g h

/-- Every method collected from an `impl_item`'s children keeps the
path-only qualified-name shape. -/
theorem implChildren_qn (path : FsPath) :
    ∀ (f : TSForest), ∀ g ∈ implChildren path f,
      g.qualified_name = pathDisplay path ++ "::" ++ g.name
  | TSForest.nil, g, hg => by simp [implChildren] at hg
  | TSForest.cons fld c rest, g, hg => by
    unfold implChildren at hg
    rcases List.mem_append.mp hg with h | h
    · by_cases hk : c.kind = "declaration_list"
      · rw [if_pos hk] at h
        exact declListMethods_qn path c.children g h
      · rw [if_neg hk] at h
        simp at h
    · exact implChildren_qn path rest g h

mutual
/-- Every node the extractor's walk collects has `qualified_name =
"{path}::{name}"`. -/
theorem visit_node_qn (path : FsPath) :
    ∀ (n : TSNode), ∀ g ∈ (visit_node path n).1,
      g.qualified_name = pathDisplay path ++ "::" ++ g.name
  | TSNode.mk k t sr er cs, g, hg => by
    unfold visit_node at hg
    simp only [] at hg
    rcases List.mem_append.mp hg with h | h
    · rcases List.mem_append.mp h with h2 | h2
      · rcases List.mem_append.mp h2 with h3 | h3
        · cases hf : extract_function (TSNode.mk k t sr er cs) path with
          | none => rw [hf] at h3; simp at h3
          | some gm =>
            rw [hf] at h3
            simp only [Option.toList_some, List.mem_singleton] at h3
            subst h3
            exact extract_function_qn _ path g hf
        · cases hf : extract_struct (TSNode.mk k t sr er cs) path with
          | none => rw [hf] at h3; simp at h3
          | some gm =>
            rw [hf] at h3
            simp only [Option.toList_some, List.mem_singleton] at h3
            subst h3
            exact extract_struct_qn _ path g hf
      · unfold extract_impl_block at h2
        split at h2
        · exact implChildren_qn path _ g h2
        · simp at h2
    · exact visit_forest_qn path cs g h

/-- Forest version of `visit_node_qn`. -/
theorem visit_forest_qn (path : FsPath) :
    ∀ (f : TSForest), ∀ g ∈ (visit_forest path f).1,
      g.qualified_name = pathDisplay path ++ "::" ++ g.name
  | TSForest.nil, g, hg => by simp [visit_forest] at hg
  | TSForest.cons fld c rest, g, hg => by
    unfold visit_forest at hg
    simp only [] at hg
    rcases List.mem_append.mp hg with h | h
    · exact visit_node_qn path c g h
    · exact visit_forest_qn path rest g h
end

/-- C7 (amended): every node `RustExtractor::extract` emits — top-level
or nested — has `qualified_name = "{path}::{name}"`; the enclosing
container's name is never included. -/
theorem c7_qualified_name_no_container (parse : String → Except String TSNode)
    (path : FsPath) (content : List Nat) :
    ∀ r, rustExtract parse path content = Except.ok r →
      ∀ g ∈ r.nodes, g.qualified_name = pathDisplay path ++ "::" ++ g.name := by
  intro r h g hg
  unfold rustExtract at h
  split at h
  · cases h
  · rename_i chars hdec
    split at h
    · cases h
    · rename_i tree hparse
      simp only [] at h
      simp only [Except.ok.injEq] at h
      subst h
      exact visit_node_qn path tree g hg

/-- Witness for `c7_qualified_name_no_container` at a concrete parse. -/
theorem c7_qualified_name_witness :
    rustExtract emptyParse ["test.rs"] [] = Except.ok ⟨[], []⟩ ∧
    (∀ g ∈ (⟨[], []⟩ : ExtractionResult).nodes,
      g.qualified_name = pathDisplay ["test.rs"] ++ "::" ++ g.name) :=
  ⟨by rfl,
   c7_qualified_name_no_container emptyParse ["test.rs"] [] ⟨[], []⟩ (by rfl)⟩

/-- C7 (counterexample): for a method `get_name` nested in
`impl User { ... }`, the extractor emits `"test.rs::get_name"` (twice:
once via the impl walk, once when the `function_item` child is visited)
— never the claimed `"test.rs::User::get_name"`. -/
theorem c7_counterexample :
    (visit_node ["test.rs"] implUserTree).1.map (fun g => g.qualified_name)
      = ["test.rs::get_name", "test.rs::get_name"] ∧
    "test.rs::User::get_name" ∉
      (visit_node ["test.rs"] implUserTree).1.map (fun g => g.qualified_name) := by
  decide

/-! ## C8 — extractor error behaviour and error frame -/

/-- C8: invalid UTF-8 makes `extract` fail; empty input (given
tree-sitter's bare `source_file` root for the empty string) succeeds
with zero nodes and zero edges; and when extraction (or the preceding
file read) fails, `handle_file_change` returns the state *unchanged*
(same graph, same diff-engine sequence, same per-file indices) and hands
nothing to the broadcaster. -/
theorem c8_extract_error_frame
    (parse : String → Except String TSNode) (path : FsPath) (content : List Nat)
    (aiConfigured : Bool)
    (resp : GraphNode → Except String (List InferredRelationship))
    (msg : String) (s : WatcherState) :
    (decodeUtf8 content = none →
      rustExtract parse path content = Except.error "invalid utf-8 sequence") ∧
    (parse "" = Except.ok emptyRoot →
      rustExtract parse path [] = Except.ok ⟨[], []⟩) ∧
    handle_file_change aiConfigured resp path (Except.error msg) s = some (s, []) := by
  refine ⟨?_, ?_, ?_⟩
  · intro hdec
    unfold rustExtract
    rw [hdec]
  · intro hparse
    unfold rustExtract
    have h0 : decodeUtf8 [] = some [] := rfl
    rw [h0]
    dsimp only
    have hs : String.mk [] = "" := rfl
    rw [hs, hparse]
    rfl
  · unfold handle_file_change
    by_cases hc : is_code_file path
    · simp [hc]
    · simp [hc]

/-- Witness for `c8_extract_error_frame` at concrete inputs. -/
theorem c8_extract_error_frame_witness :
    rustExtract emptyParse ["a.rs"] [0xFF] = Except.error "invalid utf-8 sequence" ∧
    rustExtract emptyParse ["a.rs"] [] = Except.ok ⟨[], []⟩ ∧
    handle_file_change true (fun _ => Except.ok []) ["a.rs"] (Except.error "boom")
      WatcherState.initial = some (WatcherState.initial, []) :=
  ⟨(c8_extract_error_frame emptyParse ["a.rs"] [0xFF] true (fun _ => Except.ok [])
      "boom" WatcherState.initial).1 (by rfl),
   (c8_extract_error_frame emptyParse ["a.rs"] [] true (fun _ => Except.ok [])
      "boom" WatcherState.initial).2.1 (by rfl),
   (c8_extract_error_frame emptyParse ["a.rs"] [] true (fun _ => Except.ok [])
      "boom" WatcherState.initial).2.2⟩

end Canopy
